import Mathlib

/-!
# Verification of the holidaybalance vacation-ledger engine

Shallow embedding of `holidaybalance.go` (package main).

Modelling conventions:
* A calendar date is an `Int`: the number of days since a fixed epoch
  (1970-01-01, a Thursday).  The Go code compares dates either as
  `time.Time` values or as `YYYY-MM-DD` strings; both orders coincide with
  the integer order, and `mustDate(b).Sub(mustDate(a))/(24*time.Hour)` is
  exactly the integer difference `b - a` (all parsed dates are midnight UTC,
  so the duration division is exact).
* `float64` arithmetic is embedded as exact rational arithmetic (`ℚ`).
  Every numeric constant of the program (`25./365.`, `5*fte`, `1.01`, `.5`,
  `v/100`) is an exact rational, and no comparison settled below sits at a
  float rounding boundary.
* The regex classification of an event is carried as fields of the `Event`
  record: `isStartDay` (does `reStartDay` match `ev.Summary`), `isVacation`
  (`reVacation` on `ev.Summary`), `isHalfDay` (`reHalfDay` on `ev.Summary`),
  and `percent` (the numeric value of the first submatch of `rePercent` on
  `ev.Summary`, else on `ev.Description`; `none` when neither matches).
  The pattern `(\d\d|100)\s?%` only ever yields values 0..100, but the
  embedding leaves `percent` an arbitrary `Option Nat` and keeps the
  program's own `v <= 100` re-check.
* The Go map `map[string]int` is embedded as a total function `Int → Int`
  that returns `0` on keys never written, exactly like a Go map lookup.
* `log.Fatal` and a nil-pointer dereference abort the process; the step
  relation returns `StepRes.fatal` / `StepRes.nilderef` carrying the state
  at the moment of abort, and a run that hits either produces `none`.
-/

namespace HolidayBalance

/-- `HolidaysPerCalendarDay = 25. / 365.` from the Go source. -/
def HolidaysPerCalendarDay : ℚ := 25 / 365

/-- `d.Weekday() == time.Saturday || d.Weekday() == time.Sunday` for the date
`d` days after the epoch 1970-01-01 (a Thursday): day 2 is a Saturday and
day 3 is a Sunday, and weekdays repeat with period 7. -/
def isWeekend (d : Int) : Bool := d % 7 == 2 || d % 7 == 3

/-- The Go loop increments the workday counter when
`holidays[dd] == "" && d.Weekday() != time.Sunday && d.Weekday() != time.Saturday`.
`isHol d` models membership of `d` in the public-holiday map. -/
def isWorkdayOn (isHol : Int → Bool) (d : Int) : Bool :=
  !isHol d && !isWeekend d

/-- Number of days `x` in `[d, d + k)` with `wk x = true` (specification-side
counting function used to state what the built index computes). -/
def countWorkdaysAux (wk : Int → Bool) : Int → Nat → Nat
  | _, 0 => 0
  | d, k + 1 => (if wk d then 1 else 0) + countWorkdaysAux wk (d + 1) k

/-- Number of working days in the half-open span `[a, b)`. -/
def countWorkdays (wk : Int → Bool) (a b : Int) : Nat :=
  countWorkdaysAux wk a (b - a).toNat

/-- One iteration of the Go loop
`for d := first; d.Before(e); d = d.AddDate(0,0,1) { workdays[dd] = n; if ... { n++ } }`,
unrolled over an explicit iteration count.  A map write is a pointwise
function update; unwritten keys keep the Go-map default `0`. -/
def buildLoop (wk : Int → Bool) : Nat → Int → Int → (Int → Int) → (Int → Int)
  | 0, _, _, m => m
  | k + 1, d, n, m =>
    buildLoop wk k (d + 1) (n + if wk d then 1 else 0) (fun x => if x = d then n else m x)

/-- The `workdays` map built by `main`: the loop runs for every date `d` with
`first ≤ d ≤ lastD` (the Go bound is `d.Before(mustDate(endDate).Add(time.Hour))`,
i.e. `d ≤ lastD`), assigning `workdays[d] = n` before conditionally
incrementing `n`. -/
def buildWorkdays (wk : Int → Bool) (first lastD : Int) : Int → Int :=
  buildLoop wk (lastD + 1 - first).toNat first 0 (fun _ => 0)

/-- A whole-day calendar event after upstream filtering, with the regex
classification results attached (see the module docstring). -/
structure Event where
  Start : Int
  End : Int
  isStartDay : Bool
  isVacation : Bool
  isHalfDay : Bool
  percent : Option Nat
  deriving DecidableEq

/-- `endDate` as computed by `main`: starting from `events[0].Start`, take
every event whose `End` is later. -/
def eventsEndDate (events : List Event) (init : Int) : Int :=
  events.foldl (fun acc v => if v.End > acc then v.End else acc) init

/-- The arguments of one `updateEvent` call: the (possibly patched) event
span and the four numeric fields of the printed balance line. -/
structure Snapshot where
  evStart : Int
  evEnd : Int
  daysOff : ℚ
  effDaysOff : ℚ
  accrued : ℚ
  spent : ℚ
  deriving DecidableEq

/-- The mutable locals of `main`'s event loop.  `startDate` is a `time.Time`
whose zero value models as `none`; `lastDate` and `lastVacationDate` are
nilable pointers holding a date. -/
structure State where
  startDate : Option Int
  lastDate : Option Int
  lastVacationDate : Option Int
  fte : ℚ
  accrued : ℚ
  spent : ℚ
  deriving DecidableEq

/-- The Go locals before the loop: `var startDate time.Time` (zero),
`var lastDate, lastVacationDate *calendar.EventDateTime` (nil), and
`var fte, accrued, spent float64` — all three `0.0`, the Go zero value. -/
def initState : State :=
  { startDate := none, lastDate := none, lastVacationDate := none
    fte := 0, accrued := 0, spent := 0 }

/-- The FTE update of the employee-start branch: if a percent submatch `v`
was found and `v <= 100`, set `fte = float64(v)/100`; if found but over 100,
leave `fte` unchanged; if no match at all, set `fte = 1.0`. -/
def fteAfterStart (fte : ℚ) (percent : Option Nat) : ℚ :=
  match percent with
  | some v => if v ≤ 100 then (v : ℚ) / 100 else fte
  | none => 1

/-- The overlap-trim patch `if lastVacationDate != nil && lastVacationDate.Date > ev.Start.Date
{ ev.Start = lastVacationDate }`: the start date actually used for the rest
of the vacation branch. -/
def patchedStart (lastVac : Option Int) (evStart : Int) : Int :=
  match lastVac with
  | some lv => if lv > evStart then lv else evStart
  | none => evStart

/-- The effective-days policy of the vacation branch:
`effDaysOff := daysOff`, overridden to `fte*daysOff` when
`calDays >= 5*fte`, else to `.5` when `calDays < 1.01` and the summary
matched `reHalfDay`. -/
def effDays (fte daysOff calDays : ℚ) (halfday : Bool) : ℚ :=
  if calDays ≥ 5 * fte then fte * daysOff
  else if calDays < 101 / 100 ∧ halfday then 1 / 2
  else daysOff

/-- The accrual block at the top of the loop body:
`if lastDate != nil { accrued += fte * HolidaysPerCalendarDay * (d - lastDate); lastDate = d }`
with `d = ev.End`. -/
def accrue (s : State) (d : Int) : State :=
  match s.lastDate with
  | some ld =>
    { s with
      accrued := s.accrued + s.fte * HolidaysPerCalendarDay * ((d - ld : Int) : ℚ)
      lastDate := some d }
  | none => s

/-- Result of one loop iteration: normal continuation with an optional
`updateEvent` call, `log.Fatal` abort, or nil-dereference panic; the latter
two carry the state at the moment the process dies. -/
inductive StepRes where
  | ok (s : State) (em : Option Snapshot)
  | fatal (s : State)
  | nilderef (s : State)
  deriving DecidableEq

/-- One iteration of `main`'s `for _, ev := range events` loop, translated
statement by statement:

1. if `lastDate != nil`: `accrued += fte * HolidaysPerCalendarDay * (ev.End - lastDate)`
   and `lastDate = ev.End`;
2. if `reStartDay` matches: on the very first start (`startDate.IsZero()`)
   set `lastDate = ev.Start`; set `startDate = ev.Start`; update `fte` from
   the percent submatch; call `updateEvent(.., ev, 0, 0, accrued, spent)`;
   `continue`;
3. if `reVacation` matches: `log.Fatal` when `startDate.IsZero()`;
   `continue` when `lastDate.Date > ev.End.Date` (a nil `lastDate` here
   would panic); patch `ev.Start = lastVacationDate` when
   `lastVacationDate != nil && lastVacationDate.Date > ev.Start.Date`;
   `lastVacationDate = ev.End`; `daysOff = workdays[ev.End] - workdays[ev.Start]`;
   `calDays = ev.End - ev.Start` (patched start); `effDaysOff` per the
   three-way policy; `spent += effDaysOff`; call `updateEvent`;
4. otherwise: nothing more. -/
def step (W : Int → Int) (s : State) (ev : Event) : StepRes :=
  let s1 := accrue s ev.End
  if ev.isStartDay then
    let s2 := if s1.startDate = none then { s1 with lastDate := some ev.Start } else s1
    let s3 := { s2 with startDate := some ev.Start, fte := fteAfterStart s2.fte ev.percent }
    .ok s3 (some ⟨ev.Start, ev.End, 0, 0, s3.accrued, s3.spent⟩)
  else if ev.isVacation then
    match s1.startDate with
    | none => .fatal s1
    | some _ =>
      match s1.lastDate with
      | none => .nilderef s1
      | some ld =>
        if ld > ev.End then .ok s1 none
        else
          let start' := patchedStart s1.lastVacationDate ev.Start
          let s2 := { s1 with lastVacationDate := some ev.End }
          let daysOff : ℚ := ((W ev.End - W start' : Int) : ℚ)
          let calDays : ℚ := ((ev.End - start' : Int) : ℚ)
          let effDaysOff : ℚ := effDays s2.fte daysOff calDays ev.isHalfDay
          let s3 := { s2 with spent := s2.spent + effDaysOff }
          .ok s3 (some ⟨start', ev.End, daysOff, effDaysOff, s3.accrued, s3.spent⟩)
  else
    .ok s1 none

/-- Run the loop over a list of events from a given state, collecting the
`updateEvent` calls in order; `none` when the process aborts. -/
def runAux (W : Int → Int) : State → List Event → Option (State × List Snapshot)
  | s, [] => some (s, [])
  | s, ev :: rest =>
    match step W s ev with
    | .ok s' em =>
      match runAux W s' rest with
      | some (s'', sns) => some (s'', em.toList ++ sns)
      | none => none
    | .fatal _ => none
    | .nilderef _ => none

/-- The whole computation of `main` after I/O: build the workday index over
`[events[0].Start, endDate]` and run the event loop from the zero-valued
locals.  `main` dies with `log.Fatalf` on an empty event list. -/
def mainRun (isHol : Int → Bool) (events : List Event) : Option (State × List Snapshot) :=
  match events with
  | [] => none
  | e0 :: _ =>
    runAux (buildWorkdays (isWorkdayOn isHol) e0.Start (eventsEndDate events e0.Start))
      initState events

/-- End date of the last event of a list, seeded with a default for the empty
list; this is the value of `lastDate` after the accrual block has processed
every event of the list. -/
def lastEnd (d : Int) : List Event → Int
  | [] => d
  | e :: rest => lastEnd e.End rest

/-- Go text is a byte string; events here only carry ASCII, so a string is
embedded as its list of characters. `strings.Split(s, "\n")`, translated
character by character: splitting the empty string yields one empty field,
and each newline ends the current field. -/
def splitOnNl : List Char → List (List Char)
  | [] => [[]]
  | c :: cs =>
    if c = '\n' then [] :: splitOnNl cs
    else
      match splitOnNl cs with
      | [] => [[c]]
      | l :: ls => (c :: l) :: ls

/-- `strings.Join(lines, "\n")`. -/
def joinNl : List (List Char) → List Char
  | [] => []
  | [l] => l
  | l :: ls => l ++ '\n' :: joinNl ls

/-- The fixed marker with which every balance line rendered by `updateEvent`
begins: `fmt.Sprintf("vacation from %s to %s: ...")`. -/
def vacationFrom : List Char := "vacation from ".data

/-- The description rewrite inside `updateEvent`: split the existing
description into lines, drop the last line when it starts with
`"vacation from "`, append the freshly rendered balance line, and re-join.
(Go's `len(lines) > 0` guard is always true — `strings.Split` never returns
an empty slice — and is kept here as the `getLast?` match.) -/
def mergeIntoNotes (descr newLine : List Char) : List Char :=
  let lines := splitOnNl descr
  let lines' :=
    match lines.getLast? with
    | some lastLine => if vacationFrom.isPrefixOf lastLine then lines.dropLast else lines
    | none => lines
  joinNl (lines' ++ [newLine])

/-! ## Workday-index lemmas -/

/-- Value of the map after `k` more loop iterations starting at day `d` with
counter `n`: keys in `[d, d + k)` hold `n` plus the number of working days
between `d` and the key; other keys are untouched. -/
theorem buildLoop_apply (wk : Int → Bool) :
    ∀ (k : Nat) (d : Int) (n : Int) (m : Int → Int) (x : Int),
      buildLoop wk k d n m x =
        if d ≤ x ∧ x < d + k then n + countWorkdaysAux wk d (x - d).toNat else m x := by
  intro k
  induction k with
  | zero =>
    intro d n m x
    simp only [buildLoop]
    have h : ¬(d ≤ x ∧ x < d + (0 : Nat)) := by omega
    rw [if_neg h]
  | succ k ih =>
    intro d n m x
    simp only [buildLoop]
    rw [ih]
    by_cases hx : d ≤ x ∧ x < d + (k + 1 : Nat)
    · rw [if_pos hx]
      by_cases hx1 : d + 1 ≤ x ∧ x < d + 1 + (k : Nat)
      · rw [if_pos hx1]
        have hd : 1 ≤ x - d := by omega
        have htn : (x - d).toNat = (x - (d + 1)).toNat + 1 := by omega
        rw [htn]
        simp only [countWorkdaysAux]
        have : x - d - 1 = x - (d + 1) := by ring
        push_cast
        ring
      · have hxd : x = d := by omega
        subst hxd
        rw [if_neg hx1]
        have h0 : (x - x).toNat = 0 := by omega
        simp [h0, countWorkdaysAux]
    · rw [if_neg hx]
      have hx1 : ¬(d + 1 ≤ x ∧ x < d + 1 + (k : Nat)) := by omega
      rw [if_neg hx1]
      have hxd : ¬ x = d := by omega
      simp [hxd]

/-- On any date inside the built range, the `workdays` map holds the number
of working days strictly before that date, counted from the range start. -/
theorem buildWorkdays_apply (wk : Int → Bool) (first lastD x : Int)
    (h1 : first ≤ x) (h2 : x ≤ lastD) :
    buildWorkdays wk first lastD x = countWorkdays wk first x := by
  unfold buildWorkdays countWorkdays
  rw [buildLoop_apply]
  rw [if_pos (by omega)]
  simp

/-- Splitting the day-counting recursion at an intermediate fuel value. -/
theorem countWorkdaysAux_add (wk : Int → Bool) :
    ∀ (j k : Nat) (d : Int),
      countWorkdaysAux wk d (j + k) = countWorkdaysAux wk d j + countWorkdaysAux wk (d + j) k := by
  intro j
  induction j with
  | zero => intro k d; simp [countWorkdaysAux]
  | succ j ih =>
    intro k d
    have : j + 1 + k = (j + k) + 1 := by omega
    rw [this]
    simp only [countWorkdaysAux, ih]
    have : d + 1 + (j : Int) = d + (j + 1 : Nat) := by push_cast; ring
    rw [← this]
    ring

/-- Working-day counts over adjacent half-open spans add up. -/
theorem countWorkdays_add (wk : Int → Bool) (a b c : Int) (hab : a ≤ b) (hbc : b ≤ c) :
    countWorkdays wk a b + countWorkdays wk b c = countWorkdays wk a c := by
  unfold countWorkdays
  have h : (c - a).toNat = (b - a).toNat + (c - b).toNat := by omega
  rw [h, countWorkdaysAux_add]
  have : a + ((b - a).toNat : Int) = b := by omega
  rw [this]

/-! ## Frame lemmas for the accrual block and the step relation -/

theorem accrue_of_some {s : State} {ld : Int} (h : s.lastDate = some ld) (d : Int) :
    accrue s d =
      { s with
        accrued := s.accrued + s.fte * HolidaysPerCalendarDay * ((d - ld : Int) : ℚ)
        lastDate := some d } := by
  unfold accrue
  rw [h]

theorem accrue_of_none {s : State} (h : s.lastDate = none) (d : Int) : accrue s d = s := by
  unfold accrue
  rw [h]

theorem accrue_fte (s : State) (d : Int) : (accrue s d).fte = s.fte := by
  unfold accrue
  cases s.lastDate <;> rfl

theorem accrue_spent (s : State) (d : Int) : (accrue s d).spent = s.spent := by
  unfold accrue
  cases s.lastDate <;> rfl

theorem accrue_startDate (s : State) (d : Int) : (accrue s d).startDate = s.startDate := by
  unfold accrue
  cases s.lastDate <;> rfl

theorem accrue_lastVacationDate (s : State) (d : Int) :
    (accrue s d).lastVacationDate = s.lastVacationDate := by
  unfold accrue
  cases s.lastDate <;> rfl

/-- The very first event, when it is an employee-start marker, initialises
the ledger: accrual is anchored at the marker's start date and no entitlement
has accrued yet. -/
theorem step_first_start {W : Int → Int} {S : Event} (hS : S.isStartDay = true) :
    step W initState S =
      .ok { startDate := some S.Start, lastDate := some S.Start, lastVacationDate := none,
            fte := fteAfterStart 0 S.percent, accrued := 0, spent := 0 }
        (some ⟨S.Start, S.End, 0, 0, 0, 0⟩) := by
  simp [step, accrue, initState, hS]

/-- Start-marker step from a state that has already seen a start marker:
accrual advances to the marker's end, the start date and FTE are replaced,
nothing else moves, and a zero-days snapshot is emitted. -/
theorem step_start_ok {W : Int → Int} {s : State} {ev : Event} {sd ld : Int}
    (hsd : ev.isStartDay = true) (hs : s.startDate = some sd) (hl : s.lastDate = some ld) :
    step W s ev =
      .ok { startDate := some ev.Start, lastDate := some ev.End,
            lastVacationDate := s.lastVacationDate, fte := fteAfterStart s.fte ev.percent,
            accrued := s.accrued + s.fte * HolidaysPerCalendarDay * ((ev.End - ld : Int) : ℚ),
            spent := s.spent }
        (some ⟨ev.Start, ev.End, 0, 0,
               s.accrued + s.fte * HolidaysPerCalendarDay * ((ev.End - ld : Int) : ℚ),
               s.spent⟩) := by
  simp [step, accrue_of_some hl, hsd, hs]

/-- Vacation step from a state with a start date and an accrual anchor: the
skip guard compares the freshly advanced `lastDate` — equal to `ev.End` —
against `ev.End` and therefore never fires; the span is trimmed, the
policy applied, and a snapshot emitted. -/
theorem step_vacation_ok {W : Int → Int} {s : State} {ev : Event} {sd ld : Int}
    (hnsd : ev.isStartDay = false) (hv : ev.isVacation = true)
    (hs : s.startDate = some sd) (hl : s.lastDate = some ld) :
    step W s ev =
      .ok { startDate := some sd, lastDate := some ev.End,
            lastVacationDate := some ev.End, fte := s.fte,
            accrued := s.accrued + s.fte * HolidaysPerCalendarDay * ((ev.End - ld : Int) : ℚ),
            spent := s.spent +
              effDays s.fte ((W ev.End - W (patchedStart s.lastVacationDate ev.Start) : Int) : ℚ)
                ((ev.End - patchedStart s.lastVacationDate ev.Start : Int) : ℚ) ev.isHalfDay }
        (some ⟨patchedStart s.lastVacationDate ev.Start, ev.End,
               ((W ev.End - W (patchedStart s.lastVacationDate ev.Start) : Int) : ℚ),
               effDays s.fte ((W ev.End - W (patchedStart s.lastVacationDate ev.Start) : Int) : ℚ)
                 ((ev.End - patchedStart s.lastVacationDate ev.Start : Int) : ℚ) ev.isHalfDay,
               s.accrued + s.fte * HolidaysPerCalendarDay * ((ev.End - ld : Int) : ℚ),
               s.spent +
                 effDays s.fte ((W ev.End - W (patchedStart s.lastVacationDate ev.Start) : Int) : ℚ)
                   ((ev.End - patchedStart s.lastVacationDate ev.Start : Int) : ℚ)
                   ev.isHalfDay⟩) := by
  simp [step, accrue_of_some hl, hnsd, hv, hs]

/-- Vacation step before any employee-start marker: the run dies in
`log.Fatal` with the state untouched. -/
theorem step_vacation_fatal {W : Int → Int} {s : State} {ev : Event}
    (hnsd : ev.isStartDay = false) (hv : ev.isVacation = true)
    (hs : s.startDate = none) (hl : s.lastDate = none) :
    step W s ev = .fatal s := by
  simp [step, accrue_of_none hl, hnsd, hv, hs]

/-- A marker matching neither regex only runs the accrual block. -/
theorem step_ignored_ok {W : Int → Int} {s : State} {ev : Event}
    (hnsd : ev.isStartDay = false) (hnv : ev.isVacation = false) :
    step W s ev = .ok (accrue s ev.End) none := by
  simp [step, hnsd, hnv]

/-- A successful start-marker step records the marker's start date. -/
theorem step_start_ok_startDate {W : Int → Int} {s : State} {ev : Event} {s' : State}
    {em : Option Snapshot} (hsd : ev.isStartDay = true)
    (hstep : step W s ev = .ok s' em) : s'.startDate = some ev.Start := by
  simp only [step, hsd, if_true] at hstep
  rw [StepRes.ok.injEq] at hstep
  rw [← hstep.1]

/-- A successful vacation step presupposes a recorded start date and keeps it. -/
theorem step_vacation_ok_startDate {W : Int → Int} {s : State} {ev : Event} {s' : State}
    {em : Option Snapshot} (hnsd : ev.isStartDay = false) (hv : ev.isVacation = true)
    (hstep : step W s ev = .ok s' em) :
    ∃ sd, s.startDate = some sd ∧ s'.startDate = some sd := by
  cases hs : s.startDate with
  | none =>
    exfalso
    cases hl : s.lastDate with
    | none => rw [step_vacation_fatal hnsd hv hs hl] at hstep; exact absurd hstep (by simp)
    | some ld =>
      simp [step, hnsd, hv, accrue_of_some hl, hs] at hstep
  | some sd =>
    refine ⟨sd, rfl, ?_⟩
    cases hl : s.lastDate with
    | none =>
      exfalso
      simp [step, hnsd, hv, accrue_of_none hl, hs, hl] at hstep
    | some ld =>
      rw [step_vacation_ok hnsd hv hs hl] at hstep
      rw [StepRes.ok.injEq] at hstep
      rw [← hstep.1]

/-- Concatenating event lists composes the runs, concatenating emissions. -/
theorem runAux_append (W : Int → Int) :
    ∀ (p q : List Event) (s : State),
      runAux W s (p ++ q) =
        match runAux W s p with
        | some (s1, sns1) =>
          match runAux W s1 q with
          | some (s2, sns2) => some (s2, sns1 ++ sns2)
          | none => none
        | none => none := by
  intro p
  induction p with
  | nil =>
    intro q s
    simp only [List.nil_append, runAux]
    cases runAux W s q with
    | none => rfl
    | some v =>
      obtain ⟨s2, sns2⟩ := v
      simp
  | cons e p ih =>
    intro q s
    cases hstep : step W s e with
    | ok s' em =>
      simp only [List.cons_append, runAux, hstep, List.append_eq]
      rw [ih]
      cases hp : runAux W s' p with
      | none => simp [hp]
      | some v =>
        obtain ⟨s1, sns1⟩ := v
        cases hq : runAux W s1 q with
        | none => simp [hp, hq]
        | some w =>
          obtain ⟨s2, sns2⟩ := w
          simp [hp, hq]
    | fatal s1 => simp only [List.cons_append, runAux, hstep]
    | nilderef s1 => simp only [List.cons_append, runAux, hstep]

/-- A single step keeps the invariant "no employment start seen yet implies
no accrual anchor yet". -/
theorem step_inv {W : Int → Int} {s : State} {ev : Event} {s' : State} {em : Option Snapshot}
    (h : s.startDate = none → s.lastDate = none)
    (hstep : step W s ev = .ok s' em) :
    s'.startDate = none → s'.lastDate = none := by
  intro hs'
  cases hsd : ev.isStartDay with
  | true =>
    rw [step_start_ok_startDate hsd hstep] at hs'
    exact absurd hs' (by simp)
  | false =>
    cases hv : ev.isVacation with
    | true =>
      obtain ⟨sd, -, hsd'⟩ := step_vacation_ok_startDate hsd hv hstep
      rw [hsd'] at hs'
      exact absurd hs' (by simp)
    | false =>
      rw [step_ignored_ok hsd hv] at hstep
      rw [StepRes.ok.injEq] at hstep
      rw [← hstep.1] at hs' ⊢
      rw [accrue_startDate] at hs'
      have hld := h hs'
      rw [accrue_of_none hld]
      exact hld

/-- Runs from a state satisfying the start/anchor invariant end in a state
satisfying it. -/
theorem runAux_inv (W : Int → Int) :
    ∀ (evs : List Event) (s s' : State) (sns : List Snapshot),
      (s.startDate = none → s.lastDate = none) →
      runAux W s evs = some (s', sns) →
      (s'.startDate = none → s'.lastDate = none) := by
  intro evs
  induction evs with
  | nil =>
    intro s s' sns h hrun
    simp only [runAux, Option.some.injEq, Prod.mk.injEq] at hrun
    rw [← hrun.1]
    exact h
  | cons e evs ih =>
    intro s s' sns h hrun
    simp only [runAux] at hrun
    cases hstep : step W s e with
    | ok s1 em =>
      simp only [hstep] at hrun
      cases hrest : runAux W s1 evs with
      | none => simp [hrest] at hrun
      | some v =>
        obtain ⟨s2, sns2⟩ := v
        simp only [hrest, Option.some.injEq, Prod.mk.injEq] at hrun
        rw [← hrun.1]
        exact ih s1 s2 sns2 (step_inv h hstep) hrest
    | fatal s1 => simp [hstep] at hrun
    | nilderef s1 => simp [hstep] at hrun

/-! ## FTE bounds -/

theorem fteAfterStart_bounds {f : ℚ} (h0 : 0 ≤ f) (h1 : f ≤ 1) (p : Option Nat) :
    0 ≤ fteAfterStart f p ∧ fteAfterStart f p ≤ 1 := by
  cases p with
  | none => simp [fteAfterStart]
  | some v =>
    simp only [fteAfterStart]
    by_cases hv : v ≤ 100
    · rw [if_pos hv]
      constructor
      · positivity
      · rw [div_le_one (by norm_num)]
        exact_mod_cast hv
    · rw [if_neg hv]
      exact ⟨h0, h1⟩

/-- Any start-marker step replaces `fte` by `fteAfterStart` of the previous
value, no matter which sub-branch ran. -/
theorem step_start_ok_fte {W : Int → Int} {s : State} {ev : Event} {s' : State}
    {em : Option Snapshot} (hsd : ev.isStartDay = true)
    (hstep : step W s ev = .ok s' em) : s'.fte = fteAfterStart s.fte ev.percent := by
  simp only [step, hsd, if_true] at hstep
  rw [StepRes.ok.injEq] at hstep
  rw [← hstep.1]
  show fteAfterStart _ ev.percent = _
  congr 1
  split
  · show (accrue s ev.End).fte = s.fte
    exact accrue_fte s ev.End
  · exact accrue_fte s ev.End

/-- A successful vacation step never changes `fte`. -/
theorem step_vacation_ok_fte {W : Int → Int} {s : State} {ev : Event} {s' : State}
    {em : Option Snapshot} (hnsd : ev.isStartDay = false) (hv : ev.isVacation = true)
    (hstep : step W s ev = .ok s' em) : s'.fte = s.fte := by
  cases hs : s.startDate with
  | none =>
    exfalso
    cases hl : s.lastDate with
    | none => rw [step_vacation_fatal hnsd hv hs hl] at hstep; exact absurd hstep (by simp)
    | some ld => simp [step, hnsd, hv, accrue_of_some hl, hs] at hstep
  | some sd =>
    cases hl : s.lastDate with
    | none =>
      exfalso
      simp [step, hnsd, hv, accrue_of_none hl, hs, hl] at hstep
    | some ld =>
      rw [step_vacation_ok hnsd hv hs hl] at hstep
      rw [StepRes.ok.injEq] at hstep
      rw [← hstep.1]

/-- An ignored marker never changes `fte`. -/
theorem step_ignored_ok_fte {W : Int → Int} {s : State} {ev : Event} {s' : State}
    {em : Option Snapshot} (hnsd : ev.isStartDay = false) (hnv : ev.isVacation = false)
    (hstep : step W s ev = .ok s' em) : s'.fte = s.fte := by
  rw [step_ignored_ok hnsd hnv] at hstep
  rw [StepRes.ok.injEq] at hstep
  rw [← hstep.1]
  exact accrue_fte s ev.End

/-- `fte` stays within `[0, 1]` across any successful step, whatever the
marker looks like. -/
theorem step_ok_fte_bounds {W : Int → Int} {s : State} {ev : Event} {s' : State}
    {em : Option Snapshot} (hstep : step W s ev = .ok s' em)
    (h0 : 0 ≤ s.fte) (h1 : s.fte ≤ 1) : 0 ≤ s'.fte ∧ s'.fte ≤ 1 := by
  cases hsd : ev.isStartDay with
  | true =>
    rw [step_start_ok_fte hsd hstep]
    exact fteAfterStart_bounds h0 h1 _
  | false =>
    cases hv : ev.isVacation with
    | true => rw [step_vacation_ok_fte hsd hv hstep]; exact ⟨h0, h1⟩
    | false => rw [step_ignored_ok_fte hsd hv hstep]; exact ⟨h0, h1⟩

/-- `fte` stays within `[0, 1]` across any successful run. -/
theorem runAux_fte_bounds (W : Int → Int) :
    ∀ (evs : List Event) (s s' : State) (sns : List Snapshot),
      0 ≤ s.fte → s.fte ≤ 1 →
      runAux W s evs = some (s', sns) →
      0 ≤ s'.fte ∧ s'.fte ≤ 1 := by
  intro evs
  induction evs with
  | nil =>
    intro s s' sns h0 h1 hrun
    simp only [runAux, Option.some.injEq, Prod.mk.injEq] at hrun
    rw [← hrun.1]
    exact ⟨h0, h1⟩
  | cons e evs ih =>
    intro s s' sns h0 h1 hrun
    simp only [runAux] at hrun
    cases hstep : step W s e with
    | ok s1 em =>
      simp only [hstep] at hrun
      cases hrest : runAux W s1 evs with
      | none => simp [hrest] at hrun
      | some v =>
        obtain ⟨s2, sns2⟩ := v
        simp only [hrest, Option.some.injEq, Prod.mk.injEq] at hrun
        rw [← hrun.1]
        obtain ⟨g0, g1⟩ := step_ok_fte_bounds hstep h0 h1
        exact ih s1 s2 sns2 g0 g1 hrest
    | fatal s1 => simp [hstep] at hrun
    | nilderef s1 => simp [hstep] at hrun

/-! ## Telescoping accrual -/

theorem lastEnd_nil (d : Int) : lastEnd d [] = d := rfl

theorem lastEnd_cons (d : Int) (e : Event) (evs : List Event) :
    lastEnd d (e :: evs) = lastEnd e.End evs := rfl

theorem lastEnd_ge {lo : Int} :
    ∀ (evs : List Event) (d : Int),
      (∀ e ∈ evs, lo ≤ e.Start ∧ e.Start ≤ e.End) → lo ≤ d → lo ≤ lastEnd d evs := by
  intro evs
  induction evs with
  | nil => intro d _ hd; exact hd
  | cons e evs ih =>
    intro d hall hd
    rw [lastEnd_cons]
    have he := hall e (List.mem_cons_self e evs)
    exact ih e.End (fun e' he' => hall e' (List.mem_cons_of_mem _ he')) (le_trans he.1 he.2)

/-- As long as no start marker changes the FTE, a run from a state with a
start date and an accrual anchor succeeds, keeps the FTE, moves the anchor
to the last event's end, and accrues exactly
`fte * HolidaysPerCalendarDay * (elapsed calendar days)` — the per-event
increments telescope. -/
theorem runAux_const_fte (W : Int → Int) :
    ∀ (evs : List Event) (s : State) (sd ld : Int),
      s.startDate = some sd → s.lastDate = some ld →
      (∀ e ∈ evs, e.isStartDay = true → fteAfterStart s.fte e.percent = s.fte) →
      ∃ s' sns, runAux W s evs = some (s', sns) ∧
        s'.fte = s.fte ∧
        s'.lastDate = some (lastEnd ld evs) ∧
        (∃ sd', s'.startDate = some sd') ∧
        s'.accrued = s.accrued + s.fte * HolidaysPerCalendarDay * ((lastEnd ld evs - ld : Int) : ℚ) := by
  intro evs
  induction evs with
  | nil =>
    intro s sd ld hs hl _
    refine ⟨s, [], rfl, rfl, ?_, ⟨sd, hs⟩, ?_⟩
    · rw [lastEnd_nil]; exact hl
    · rw [lastEnd_nil]; simp
  | cons e evs ih =>
    intro s sd ld hs hl hconst
    cases hsd : e.isStartDay with
    | true =>
      have hfte : fteAfterStart s.fte e.percent = s.fte :=
        hconst e (List.mem_cons_self e evs) hsd
      have hstep := step_start_ok (W := W) hsd hs hl
      rw [hfte] at hstep
      obtain ⟨s', sns, hrun, hf, hlast, hsd', hacc⟩ :=
        ih { startDate := some e.Start, lastDate := some e.End,
             lastVacationDate := s.lastVacationDate, fte := s.fte,
             accrued := s.accrued + s.fte * HolidaysPerCalendarDay * ((e.End - ld : Int) : ℚ),
             spent := s.spent }
          e.Start e.End rfl rfl
          (fun e' he' hsd' => hconst e' (List.mem_cons_of_mem _ he') hsd')
      dsimp only at hf hacc
      have hrun2 : runAux W s (e :: evs) =
          some (s', ⟨e.Start, e.End, 0, 0,
                     s.accrued + s.fte * HolidaysPerCalendarDay * ((e.End - ld : Int) : ℚ),
                     s.spent⟩ :: sns) := by
        simp only [runAux, hstep, hrun]
        rfl
      refine ⟨s', _, hrun2, hf, ?_, hsd', ?_⟩
      · rw [lastEnd_cons]; exact hlast
      · rw [hacc, lastEnd_cons]
        push_cast
        ring
    | false =>
      cases hv : e.isVacation with
      | true =>
        have hstep := step_vacation_ok (W := W) hsd hv hs hl
        obtain ⟨s', sns, hrun, hf, hlast, hsd', hacc⟩ :=
          ih { startDate := some sd, lastDate := some e.End,
               lastVacationDate := some e.End, fte := s.fte,
               accrued := s.accrued + s.fte * HolidaysPerCalendarDay * ((e.End - ld : Int) : ℚ),
               spent := s.spent +
                 effDays s.fte
                   ((W e.End - W (patchedStart s.lastVacationDate e.Start) : Int) : ℚ)
                   ((e.End - patchedStart s.lastVacationDate e.Start : Int) : ℚ) e.isHalfDay }
            sd e.End rfl rfl
            (fun e' he' hsd' => hconst e' (List.mem_cons_of_mem _ he') hsd')
        dsimp only at hf hacc
        have hrun2 : runAux W s (e :: evs) =
            some (s', ⟨patchedStart s.lastVacationDate e.Start, e.End,
                       ((W e.End - W (patchedStart s.lastVacationDate e.Start) : Int) : ℚ),
                       effDays s.fte
                         ((W e.End - W (patchedStart s.lastVacationDate e.Start) : Int) : ℚ)
                         ((e.End - patchedStart s.lastVacationDate e.Start : Int) : ℚ)
                         e.isHalfDay,
                       s.accrued + s.fte * HolidaysPerCalendarDay * ((e.End - ld : Int) : ℚ),
                       s.spent +
                         effDays s.fte
                           ((W e.End - W (patchedStart s.lastVacationDate e.Start) : Int) : ℚ)
                           ((e.End - patchedStart s.lastVacationDate e.Start : Int) : ℚ)
                           e.isHalfDay⟩ :: sns) := by
          simp only [runAux, hstep, hrun]
          rfl
        refine ⟨s', _, hrun2, hf, ?_, hsd', ?_⟩
        · rw [lastEnd_cons]; exact hlast
        · rw [hacc, lastEnd_cons]
          push_cast
          ring
      | false =>
        have hstep := @step_ignored_ok W s e hsd hv
        rw [accrue_of_some hl] at hstep
        obtain ⟨s', sns, hrun, hf, hlast, hsd', hacc⟩ :=
          ih { s with
               lastDate := some e.End,
               accrued := s.accrued + s.fte * HolidaysPerCalendarDay * ((e.End - ld : Int) : ℚ) }
            sd e.End hs rfl
            (fun e' he' hsd' => hconst e' (List.mem_cons_of_mem _ he') hsd')
        dsimp only at hf hacc
        have hrun2 : runAux W s (e :: evs) = some (s', sns) := by
          simp only [runAux, hstep, hrun]
          rfl
        refine ⟨s', _, hrun2, hf, ?_, hsd', ?_⟩
        · rw [lastEnd_cons]; exact hlast
        · rw [hacc, lastEnd_cons]
          push_cast
          ring

/-! ## Bounds on the computed end date -/

theorem le_eventsEndDate_init :
    ∀ (evs : List Event) (init : Int), init ≤ eventsEndDate evs init := by
  intro evs
  induction evs with
  | nil => intro init; exact le_refl _
  | cons e evs ih =>
    intro init
    simp only [eventsEndDate, List.foldl_cons]
    refine le_trans ?_ (ih _)
    split
    · omega
    · exact le_refl _

theorem le_eventsEndDate_mem :
    ∀ (evs : List Event) (init : Int) (e : Event), e ∈ evs → e.End ≤ eventsEndDate evs init := by
  intro evs
  induction evs with
  | nil => intro init e he; exact absurd he (by simp)
  | cons f evs ih =>
    intro init e he
    simp only [eventsEndDate, List.foldl_cons]
    rcases List.mem_cons.mp he with h | h
    · subst h
      refine le_trans ?_ (le_eventsEndDate_init evs _)
      split
      · exact le_refl _
      · omega
    · exact ih _ e h

/-! ## Line splitting and joining -/

theorem splitOnNl_ne_nil : ∀ (t : List Char), splitOnNl t ≠ [] := by
  intro t
  induction t with
  | nil => simp [splitOnNl]
  | cons c cs ih =>
    simp only [splitOnNl]
    by_cases hc : c = '\n'
    · rw [if_pos hc]; simp
    · rw [if_neg hc]
      cases h : splitOnNl cs with
      | nil => simp
      | cons l ls => simp

theorem mem_splitOnNl_no_nl :
    ∀ (t l : List Char), l ∈ splitOnNl t → '\n' ∉ l := by
  intro t
  induction t with
  | nil =>
    intro l hl
    simp only [splitOnNl, List.mem_singleton] at hl
    simp [hl]
  | cons c cs ih =>
    intro l hl
    simp only [splitOnNl] at hl
    by_cases hc : c = '\n'
    · rw [if_pos hc] at hl
      rcases List.mem_cons.mp hl with h | h
      · simp [h]
      · exact ih l h
    · rw [if_neg hc] at hl
      cases h : splitOnNl cs with
      | nil =>
        rw [h] at hl
        rcases List.mem_cons.mp hl with h' | h'
        · subst h'
          intro hmem
          rcases List.mem_cons.mp hmem with h'' | h''
          · exact hc h''.symm
          · simp at h''
        · simp at h'
      | cons l0 ls =>
        rw [h] at hl
        rcases List.mem_cons.mp hl with h' | h'
        · subst h'
          intro hmem
          rcases List.mem_cons.mp hmem with h'' | h''
          · exact hc h''.symm
          · exact ih l0 (by rw [h]; exact List.mem_cons_self _ _) h''
        · exact ih l (by rw [h]; exact List.mem_cons_of_mem _ h')

theorem splitOnNl_no_nl : ∀ (l : List Char), '\n' ∉ l → splitOnNl l = [l] := by
  intro l
  induction l with
  | nil => intro; rfl
  | cons c cs ih =>
    intro h
    have hc : ¬ c = '\n' := fun hc => h (List.mem_cons.mpr (Or.inl hc.symm))
    have hcs : '\n' ∉ cs := fun hm => h (List.mem_cons_of_mem _ hm)
    simp only [splitOnNl, if_neg hc, ih hcs]

theorem splitOnNl_append_nl :
    ∀ (l rest : List Char), '\n' ∉ l →
      splitOnNl (l ++ '\n' :: rest) = l :: splitOnNl rest := by
  intro l
  induction l with
  | nil => intro rest _; simp [splitOnNl]
  | cons c cs ih =>
    intro rest h
    have hc : ¬ c = '\n' := fun hc => h (List.mem_cons.mpr (Or.inl hc.symm))
    have hcs : '\n' ∉ cs := fun hm => h (List.mem_cons_of_mem _ hm)
    simp only [List.cons_append, splitOnNl, if_neg hc, List.append_eq, ih rest hcs]

/-- Joining newline-free lines and re-splitting recovers exactly the lines. -/
theorem splitOnNl_joinNl :
    ∀ (ls : List (List Char)), ls ≠ [] → (∀ l ∈ ls, '\n' ∉ l) →
      splitOnNl (joinNl ls) = ls := by
  intro ls
  induction ls with
  | nil => intro h _; exact absurd rfl h
  | cons l ls ih =>
    intro _ hall
    cases ls with
    | nil =>
      show splitOnNl (joinNl [l]) = [l]
      simp only [joinNl]
      exact splitOnNl_no_nl l (hall l (List.mem_cons_self _ _))
    | cons l2 ls2 =>
      show splitOnNl (joinNl (l :: l2 :: ls2)) = l :: l2 :: ls2
      simp only [joinNl]
      rw [splitOnNl_append_nl _ _ (hall l (List.mem_cons_self _ _))]
      rw [ih (by simp) (fun x hx => hall x (List.mem_cons_of_mem _ hx))]

/-! ## Claim theorems -/

/-- C1: the spec's overlap-skip rule says a vacation marker `m` with
`lastVacationEnd > m.end` is skipped with no state change and no emission.
Evaluating the program on an employment start `[0,1)`, a vacation `[7,19)`
and a contained vacation `[9,11)` shows the opposite: the guard at the
`continue` compares `lastDate` — just advanced to `m.end` by the accrual
block — so it never fires; the contained marker is trimmed to start at
`lastVacationEnd = 19`, a third snapshot IS emitted with `daysOff = -6`,
`lastVacationEnd` drops from 19 to 11, and `spent` falls from 8 to 2. -/
theorem c1_contained_vacation_is_processed :
    mainRun (fun _ => false)
        [⟨0, 1, true, false, false, none⟩, ⟨7, 19, false, true, false, none⟩,
         ⟨9, 11, false, true, false, none⟩] =
      some ({ startDate := some 0, lastDate := some 11, lastVacationDate := some 11,
              fte := 1, accrued := 55/73, spent := 2 },
            [⟨0, 1, 0, 0, 0, 0⟩, ⟨7, 19, 8, 8, 95/73, 8⟩, ⟨19, 11, -6, -6, 55/73, 2⟩]) ∧
    some (11 : Int) ≠ some (19 : Int) ∧ (2 : ℚ) ≠ 8 := by
  refine ⟨?_, by decide, by norm_num⟩
  norm_num [mainRun, runAux, step, buildWorkdays, buildLoop, eventsEndDate, initState,
    fteAfterStart, HolidaysPerCalendarDay, isWorkdayOn, isWeekend, accrue, patchedStart, effDays]

/-- C2 (counterexample): at `fte = 20%` — squarely inside `(0, 1]` — a
one-calendar-day vacation with the half-day hint is NOT charged 0.5 days:
`calDays = 1 >= 5 * 0.2` routes it through the pro-rating branch, so the
effective deduction is `fte * daysOff = 0.2`, not `0.5`. -/
theorem c2_halfday_fte_cex :
    mainRun (fun _ => false)
        [⟨0, 1, true, false, false, some 20⟩, ⟨7, 8, false, true, true, none⟩] =
      some ({ startDate := some 0, lastDate := some 8, lastVacationDate := some 8,
              fte := 1/5, accrued := 8/73, spent := 1/5 },
            [⟨0, 1, 0, 0, 0, 0⟩, ⟨7, 8, 1, 1/5, 8/73, 1/5⟩]) ∧
    (1/5 : ℚ) ≠ 1/2 := by
  refine ⟨?_, by norm_num⟩
  norm_num [mainRun, runAux, step, buildWorkdays, buildLoop, eventsEndDate, initState,
    fteAfterStart, HolidaysPerCalendarDay, isWorkdayOn, isWeekend, accrue, patchedStart, effDays]

/-- C2 (amended): a one-calendar-day vacation marker with the half-day hint
yields `effDaysOff = 0.5` for every `fte` with `5 * fte > 1` (i.e.
`fte > 20%`); the pro-rating branch takes priority for `fte ≤ 20%`. -/
theorem c2_halfday_amended (W : Int → Int) (s : State) (ev : Event) (sd ld : Int)
    (hsd : s.startDate = some sd) (hld : s.lastDate = some ld)
    (hnv : ∀ lv, s.lastVacationDate = some lv → lv ≤ ev.Start)
    (hnsd : ev.isStartDay = false) (hv : ev.isVacation = true) (hh : ev.isHalfDay = true)
    (hspan : ev.End = ev.Start + 1) (hfte : 1 < 5 * s.fte) :
    ∃ s' sn, step W s ev = .ok s' (some sn) ∧ sn.effDaysOff = 1 / 2 ∧
      s'.spent = s.spent + 1 / 2 := by
  have hps : patchedStart s.lastVacationDate ev.Start = ev.Start := by
    cases h : s.lastVacationDate with
    | none => rfl
    | some lv =>
      simp only [patchedStart]
      rw [if_neg]
      exact not_lt.mpr (hnv lv h)
  have heff : effDays s.fte
      ((W ev.End - W (patchedStart s.lastVacationDate ev.Start) : Int) : ℚ)
      ((ev.End - patchedStart s.lastVacationDate ev.Start : Int) : ℚ) ev.isHalfDay = 1 / 2 := by
    rw [hps]
    have hc : ((ev.End - ev.Start : Int) : ℚ) = 1 := by
      rw [hspan]
      push_cast
      ring
    rw [hc, hh]
    simp only [effDays]
    rw [if_neg (not_le.mpr hfte), if_pos ⟨by norm_num, trivial⟩]
  refine ⟨_, _, step_vacation_ok hnsd hv hsd hld, ?_, ?_⟩
  · exact heff
  · dsimp only
    rw [heff]

/-- Witness for C2 (amended) at `fte = 1`, booking `[3, 4)`. -/
theorem c2_halfday_amended_witness :
    (1 : ℚ) < 5 * (⟨some 0, some 0, none, 1, 0, 0⟩ : State).fte ∧
    ∃ s' sn, step (fun _ => 1) ⟨some 0, some 0, none, 1, 0, 0⟩ ⟨3, 4, false, true, true, none⟩ =
      .ok s' (some sn) ∧ sn.effDaysOff = 1 / 2 ∧
      s'.spent = (⟨some 0, some 0, none, 1, 0, 0⟩ : State).spent + 1 / 2 :=
  ⟨by norm_num, c2_halfday_amended (fun _ => 1) ⟨some 0, some 0, none, 1, 0, 0⟩
    ⟨3, 4, false, true, true, none⟩ 0 0 rfl rfl (fun lv h => by simp at h) rfl rfl rfl
    (by norm_num) (by norm_num)⟩

/-- C3: after the first employment-start marker, with no subsequent start
marker changing the FTE, processing any marker sequence whose last marker
ends `N` days after the start accrues exactly
`fte * HolidaysPerCalendarDay * N`, however many markers subdivide the
interval. -/
theorem c3_accrual_telescopes (W : Int → Int) (S : Event) (rest : List Event) (N : Int)
    (hS : S.isStartDay = true)
    (hconst : ∀ e ∈ rest, e.isStartDay = true →
      fteAfterStart (fteAfterStart 0 S.percent) e.percent = fteAfterStart 0 S.percent)
    (hN : lastEnd S.Start rest = S.Start + N) :
    ∃ s' sns, runAux W initState (S :: rest) = some (s', sns) ∧
      s'.accrued = s'.fte * HolidaysPerCalendarDay * ((N : Int) : ℚ) := by
  have h1 := step_first_start (W := W) (S := S) hS
  obtain ⟨s', sns, hrun, hf, hlast, hsd', hacc⟩ :=
    runAux_const_fte W rest
      { startDate := some S.Start, lastDate := some S.Start, lastVacationDate := none,
        fte := fteAfterStart 0 S.percent, accrued := 0, spent := 0 }
      S.Start S.Start rfl rfl hconst
  dsimp only at hf hacc
  have hrun2 : runAux W initState (S :: rest) =
      some (s', ⟨S.Start, S.End, 0, 0, 0, 0⟩ :: sns) := by
    simp only [runAux, h1, hrun]
    rfl
  refine ⟨s', _, hrun2, ?_⟩
  rw [hacc, hf, hN]
  push_cast
  ring

/-- Witness for C3: one start marker, an ignored marker and a vacation
marker ending 7 days after the start. -/
theorem c3_accrual_telescopes_witness :
    lastEnd (0 : Int) [⟨2, 5, false, false, false, none⟩, ⟨3, 7, false, true, false, none⟩] =
      0 + 7 ∧
    ∃ s' sns, runAux (fun _ => 0) initState
        [⟨0, 1, true, false, false, none⟩, ⟨2, 5, false, false, false, none⟩,
         ⟨3, 7, false, true, false, none⟩] = some (s', sns) ∧
      s'.accrued = s'.fte * HolidaysPerCalendarDay * ((7 : Int) : ℚ) :=
  ⟨by simp [lastEnd], c3_accrual_telescopes (fun _ => 0) ⟨0, 1, true, false, false, none⟩
    [⟨2, 5, false, false, false, none⟩, ⟨3, 7, false, true, false, none⟩] 7 rfl
    (by simp) (by simp [lastEnd])⟩

/-- C4 (counterexample): an Ignored marker `[3, 5)` after a start marker
`[0, 1)` does NOT leave the ledger unchanged — the accrual block runs for
every marker, so `accrued` grows from 0 to `25/73 = 5 * 25/365` and
`lastAccrualDate` advances from 0 to 5 (no snapshot is emitted, though). -/
theorem c4_ignored_cex :
    mainRun (fun _ => false)
        [⟨0, 1, true, false, false, none⟩, ⟨3, 5, false, false, false, none⟩] =
      some ({ startDate := some 0, lastDate := some 5, lastVacationDate := none,
              fte := 1, accrued := 25/73, spent := 0 },
            [⟨0, 1, 0, 0, 0, 0⟩]) ∧
    (25/73 : ℚ) ≠ 0 ∧ some (5 : Int) ≠ some (0 : Int) := by
  refine ⟨?_, by norm_num, by decide⟩
  norm_num [mainRun, runAux, step, buildWorkdays, buildLoop, eventsEndDate, initState,
    fteAfterStart, HolidaysPerCalendarDay, isWorkdayOn, isWeekend, accrue, patchedStart, effDays]

/-- C4 (amended): an Ignored marker emits no snapshot and leaves `spent`,
`fte`, `startDate` and `lastVacationEnd` unchanged; but the accrual block
still runs: when `lastAccrualDate` is set it advances to `m.end` and
`accrued` grows by `fte * HolidaysPerCalendarDay * (m.end - lastAccrualDate)`
(only when `lastAccrualDate` is unset does nothing change at all). -/
theorem c4_ignored_amended (W : Int → Int) (s : State) (ev : Event)
    (hnsd : ev.isStartDay = false) (hnv : ev.isVacation = false) :
    ∃ s', step W s ev = .ok s' none ∧
      s'.spent = s.spent ∧ s'.fte = s.fte ∧ s'.startDate = s.startDate ∧
      s'.lastVacationDate = s.lastVacationDate ∧
      (s.lastDate = none → s' = s) ∧
      (∀ ld, s.lastDate = some ld → s'.lastDate = some ev.End ∧
        s'.accrued = s.accrued + s.fte * HolidaysPerCalendarDay * ((ev.End - ld : Int) : ℚ)) := by
  refine ⟨accrue s ev.End, step_ignored_ok hnsd hnv, accrue_spent s ev.End, accrue_fte s ev.End,
    accrue_startDate s ev.End, accrue_lastVacationDate s ev.End, ?_, ?_⟩
  · intro h
    exact accrue_of_none h ev.End
  · intro ld h
    rw [accrue_of_some h]
    exact ⟨rfl, rfl⟩

/-- Witness for C4 (amended). -/
theorem c4_ignored_amended_witness :
    ((⟨2, 9, false, false, false, some 50⟩ : Event).isStartDay = false) ∧
    ∃ s', step (fun _ => 0) ⟨some 0, some 4, none, 1, 2, 1⟩
        ⟨2, 9, false, false, false, some 50⟩ = .ok s' none ∧
      s'.spent = (⟨some 0, some 4, none, 1, 2, 1⟩ : State).spent ∧
      s'.fte = (⟨some 0, some 4, none, 1, 2, 1⟩ : State).fte ∧
      s'.startDate = (⟨some 0, some 4, none, 1, 2, 1⟩ : State).startDate ∧
      s'.lastVacationDate = (⟨some 0, some 4, none, 1, 2, 1⟩ : State).lastVacationDate ∧
      ((⟨some 0, some 4, none, 1, 2, 1⟩ : State).lastDate = none →
        s' = ⟨some 0, some 4, none, 1, 2, 1⟩) ∧
      (∀ ld, (⟨some 0, some 4, none, 1, 2, 1⟩ : State).lastDate = some ld →
        s'.lastDate = some (⟨2, 9, false, false, false, some 50⟩ : Event).End ∧
        s'.accrued = (⟨some 0, some 4, none, 1, 2, 1⟩ : State).accrued +
          (⟨some 0, some 4, none, 1, 2, 1⟩ : State).fte * HolidaysPerCalendarDay *
            (((⟨2, 9, false, false, false, some 50⟩ : Event).End - ld : Int) : ℚ)) :=
  ⟨rfl, c4_ignored_amended (fun _ => 0) ⟨some 0, some 4, none, 1, 2, 1⟩
    ⟨2, 9, false, false, false, some 50⟩ rfl rfl⟩

/-- C5: two vacation markers `[a,b)` and `[c,d)` with `a ≤ c < b ≤ d`,
processed in order after an employment start, deduct in total exactly the
working days of `[a, d)`: the second is trimmed to `[b, d)`, so no day of
`[c, b)` is double-counted and none of `[a, d)` is missed. -/
theorem c5_overlap_union (isHol : Int → Bool) (S V1 V2 : Event)
    (hS : S.isStartDay = true)
    (h1s : V1.isStartDay = false) (h1v : V1.isVacation = true)
    (h2s : V2.isStartDay = false) (h2v : V2.isVacation = true)
    (hSa : S.Start ≤ V1.Start) (hac : V1.Start ≤ V2.Start)
    (hcb : V2.Start < V1.End) (hbd : V1.End ≤ V2.End) :
    ∃ s' sn0 sn1 sn2,
      mainRun isHol [S, V1, V2] = some (s', [sn0, sn1, sn2]) ∧
      sn1.daysOff + sn2.daysOff =
        (countWorkdays (isWorkdayOn isHol) V1.Start V2.End : ℚ) := by
  set wk := isWorkdayOn isHol with hwk
  set lastD := eventsEndDate [S, V1, V2] S.Start with hlastD
  set W := buildWorkdays wk S.Start lastD with hW
  have h1 := step_first_start (W := W) (S := S) hS
  have h2 := @step_vacation_ok W
    { startDate := some S.Start, lastDate := some S.Start, lastVacationDate := none,
      fte := fteAfterStart 0 S.percent, accrued := 0, spent := 0 }
    V1 S.Start S.Start h1s h1v rfl rfl
  dsimp only [patchedStart] at h2
  have h3 := @step_vacation_ok W
    { startDate := some S.Start, lastDate := some V1.End,
      lastVacationDate := some V1.End, fte := fteAfterStart 0 S.percent,
      accrued := 0 + fteAfterStart 0 S.percent * HolidaysPerCalendarDay *
        ((V1.End - S.Start : Int) : ℚ),
      spent := 0 + effDays (fteAfterStart 0 S.percent)
        ((W V1.End - W V1.Start : Int) : ℚ)
        ((V1.End - V1.Start : Int) : ℚ) V1.isHalfDay }
    V2 S.Start V1.End h2s h2v rfl rfl
  dsimp only at h3
  have hps : patchedStart (some V1.End) V2.Start = V1.End := by
    simp only [patchedStart]
    rw [if_pos hcb]
  rw [hps] at h3
  have hrun : runAux W initState [S, V1, V2] =
      some ({ startDate := some S.Start, lastDate := some V2.End,
              lastVacationDate := some V2.End, fte := fteAfterStart 0 S.percent,
              accrued := 0 + fteAfterStart 0 S.percent * HolidaysPerCalendarDay *
                  ((V1.End - S.Start : Int) : ℚ) +
                fteAfterStart 0 S.percent * HolidaysPerCalendarDay *
                  ((V2.End - V1.End : Int) : ℚ),
              spent := 0 + effDays (fteAfterStart 0 S.percent)
                  ((W V1.End - W V1.Start : Int) : ℚ)
                  ((V1.End - V1.Start : Int) : ℚ) V1.isHalfDay +
                effDays (fteAfterStart 0 S.percent)
                  ((W V2.End - W V1.End : Int) : ℚ)
                  ((V2.End - V1.End : Int) : ℚ) V2.isHalfDay },
            [⟨S.Start, S.End, 0, 0, 0, 0⟩,
             ⟨V1.Start, V1.End, ((W V1.End - W V1.Start : Int) : ℚ),
              effDays (fteAfterStart 0 S.percent)
                ((W V1.End - W V1.Start : Int) : ℚ)
                ((V1.End - V1.Start : Int) : ℚ) V1.isHalfDay,
              0 + fteAfterStart 0 S.percent * HolidaysPerCalendarDay *
                ((V1.End - S.Start : Int) : ℚ),
              0 + effDays (fteAfterStart 0 S.percent)
                ((W V1.End - W V1.Start : Int) : ℚ)
                ((V1.End - V1.Start : Int) : ℚ) V1.isHalfDay⟩,
             ⟨V1.End, V2.End, ((W V2.End - W V1.End : Int) : ℚ),
              effDays (fteAfterStart 0 S.percent)
                ((W V2.End - W V1.End : Int) : ℚ)
                ((V2.End - V1.End : Int) : ℚ) V2.isHalfDay,
              0 + fteAfterStart 0 S.percent * HolidaysPerCalendarDay *
                  ((V1.End - S.Start : Int) : ℚ) +
                fteAfterStart 0 S.percent * HolidaysPerCalendarDay *
                  ((V2.End - V1.End : Int) : ℚ),
              0 + effDays (fteAfterStart 0 S.percent)
                  ((W V1.End - W V1.Start : Int) : ℚ)
                  ((V1.End - V1.Start : Int) : ℚ) V1.isHalfDay +
                effDays (fteAfterStart 0 S.percent)
                  ((W V2.End - W V1.End : Int) : ℚ)
                  ((V2.End - V1.End : Int) : ℚ) V2.isHalfDay⟩]) := by
    simp only [runAux, h1, h2, h3]
    rfl
  have hmain : mainRun isHol [S, V1, V2] = runAux W initState [S, V1, V2] := by
    simp only [mainRun]
  refine ⟨_, _, _, _, hmain.trans hrun, ?_⟩
  dsimp only
  have hV1e : V1.End ≤ lastD :=
    le_eventsEndDate_mem [S, V1, V2] S.Start V1 (by simp)
  have hV2e : V2.End ≤ lastD :=
    le_eventsEndDate_mem [S, V1, V2] S.Start V2 (by simp)
  have hV1s : V1.Start ≤ lastD := le_trans (le_trans hac (le_of_lt hcb)) hV1e
  have hSSV1e : S.Start ≤ V1.End := le_trans hSa (le_trans hac (le_of_lt hcb))
  have hSSV2e : S.Start ≤ V2.End := le_trans hSSV1e hbd
  rw [hW, buildWorkdays_apply wk S.Start lastD V1.Start hSa hV1s,
      buildWorkdays_apply wk S.Start lastD V1.End hSSV1e hV1e,
      buildWorkdays_apply wk S.Start lastD V2.End hSSV2e hV2e]
  have hadd := countWorkdays_add wk S.Start V1.Start V2.End hSa
    (le_trans (le_trans hac (le_of_lt hcb)) hbd)
  have hadd' := congrArg (Nat.cast (R := ℚ)) hadd
  push_cast at hadd' ⊢
  linarith

/-- Witness for C5: start `[0,1)`, vacations `[4,8)` and `[6,11)`. -/
theorem c5_overlap_union_witness :
    ((0 : Int) ≤ 4) ∧
    ∃ s' sn0 sn1 sn2,
      mainRun (fun _ => false)
          [⟨0, 1, true, false, false, none⟩, ⟨4, 8, false, true, false, none⟩,
           ⟨6, 11, false, true, false, none⟩] = some (s', [sn0, sn1, sn2]) ∧
      sn1.daysOff + sn2.daysOff =
        (countWorkdays (isWorkdayOn fun _ => false) 4 11 : ℚ) :=
  ⟨by norm_num, c5_overlap_union (fun _ => false) ⟨0, 1, true, false, false, none⟩
    ⟨4, 8, false, true, false, none⟩ ⟨6, 11, false, true, false, none⟩
    rfl rfl rfl rfl rfl (by norm_num) (by norm_num) (by norm_num) (by norm_num)⟩

/-- C6: for every date in the built range the workday index holds the count
of working days strictly before it (not Saturday, not Sunday, not a holiday
key), and consequently `index[hi] - index[lo]` is the working-day count of
the half-open span `[lo, hi)` for in-range `lo ≤ hi`. -/
theorem c6_workday_index (isHol : Int → Bool) (first lastD d lo hi : Int) :
    (first ≤ d → d ≤ lastD →
      buildWorkdays (isWorkdayOn isHol) first lastD d =
        (countWorkdays (isWorkdayOn isHol) first d : Int)) ∧
    (first ≤ lo → lo ≤ hi → hi ≤ lastD →
      buildWorkdays (isWorkdayOn isHol) first lastD hi -
        buildWorkdays (isWorkdayOn isHol) first lastD lo =
        (countWorkdays (isWorkdayOn isHol) lo hi : Int)) := by
  constructor
  · intro h1 h2
    rw [buildWorkdays_apply _ _ _ _ h1 h2]
  · intro h1 h2 h3
    rw [buildWorkdays_apply _ _ _ _ (le_trans h1 h2) h3,
        buildWorkdays_apply _ _ _ _ h1 (le_trans h2 h3)]
    have := countWorkdays_add (isWorkdayOn isHol) first lo hi h1 h2
    omega

/-- Witness for C6 on the range `[0, 10]` with a holiday on day 5. -/
theorem c6_workday_index_witness :
    ((0 : Int) ≤ 2) ∧
    (buildWorkdays (isWorkdayOn fun d => d == 5) 0 10 9 -
       buildWorkdays (isWorkdayOn fun d => d == 5) 0 10 2 =
       (countWorkdays (isWorkdayOn fun d => d == 5) 2 9 : Int)) :=
  ⟨by norm_num,
   (c6_workday_index (fun d => d == 5) 0 10 4 2 9).2 (by norm_num) (by norm_num) (by norm_num)⟩

/-- C7 (counterexample): the claim puts `fte` in `(0, 1]` at every point,
`1.0` initially. In fact `fte` is the Go zero value `0.0` before the first
employment-start marker, and a start marker whose summary matches `00%`
leaves it at `0` as well — both outside `(0, 1]`. -/
theorem c7_fte_cex :
    initState.fte = 0 ∧
    step (fun _ => 0) initState ⟨0, 1, true, false, false, some 0⟩ =
      .ok { startDate := some 0, lastDate := some 0, lastVacationDate := none,
            fte := 0, accrued := 0, spent := 0 } (some ⟨0, 1, 0, 0, 0, 0⟩) ∧
    ¬ (0 : ℚ) < 0 := by
  refine ⟨rfl, ?_, by norm_num⟩
  rw [step_first_start rfl]
  norm_num [fteAfterStart]

/-- C7 (amended): `fte` always lies in `[0, 1]`: it starts at `0.0`, an
EmploymentStart sets it to `percent/100 ∈ [0,1]` when a percentage `≤ 100`
is matched (possibly `0` for `00%`), to `1.0` when none is matched, and
leaves it unchanged otherwise; no other marker touches it. -/
theorem c7_fte_amended (W : Int → Int) (evs : List Event) (s' : State) (sns : List Snapshot)
    (hrun : runAux W initState evs = some (s', sns)) :
    0 ≤ s'.fte ∧ s'.fte ≤ 1 :=
  runAux_fte_bounds W evs initState s' sns (le_refl 0) (by norm_num [initState]) hrun

/-- Witness for C7 (amended) on a one-marker run. -/
theorem c7_fte_amended_witness :
    runAux (fun _ => 0) initState [⟨5, 9, false, false, false, none⟩] =
      some (initState, []) ∧
    (0 ≤ initState.fte ∧ initState.fte ≤ 1) :=
  ⟨rfl, c7_fte_amended (fun _ => 0) [⟨5, 9, false, false, false, none⟩] initState [] rfl⟩

set_option maxHeartbeats 2000000 in
/-- C8 (counterexample): accrual increments can be negative (whenever a
marker ends before the previous marker's end) and `accrued` itself can go
negative once the FTE changes: start at 1%, vacation `[0,20)`, switch to
100% with a 9-day start marker `[1,10)`, then vacation `[2,3)` — the final
accrued is `-69/146 < 0`. -/
theorem c8_accrued_negative_cex :
    mainRun (fun _ => false)
        [⟨0, 1, true, false, false, some 1⟩, ⟨0, 20, false, true, false, none⟩,
         ⟨1, 10, true, false, false, some 100⟩, ⟨2, 3, false, true, false, none⟩] =
      some ({ startDate := some 1, lastDate := some 3, lastVacationDate := some 3,
              fte := 1, accrued := -69/146, spent := -593/50 },
            [⟨0, 1, 0, 0, 0, 0⟩, ⟨0, 20, 14, 7/50, 1/73, 7/50⟩,
             ⟨1, 10, 0, 0, 1/146, 7/50⟩, ⟨20, 3, -12, -12, -69/146, -593/50⟩]) ∧
    (-69/146 : ℚ) < 0 := by
  refine ⟨?_, by norm_num⟩
  norm_num [mainRun, runAux, step, buildWorkdays, buildLoop, eventsEndDate, initState,
    fteAfterStart, HolidaysPerCalendarDay, isWorkdayOn, isWeekend, accrue, patchedStart, effDays,
    Option.some_ne_none]

/-- C8 (amended): with the FTE held constant after the first
EmploymentStart and markers in ascending start order with `start ≤ end`,
`accrued = fte * (25/365) * (lastAccrualDate - startDate) ≥ 0` after every
transition (every prefix of the run). -/
theorem c8_accrued_amended (W : Int → Int) (S : Event) (rest : List Event)
    (hS : S.isStartDay = true)
    (hconst : ∀ e ∈ rest, e.isStartDay = true →
      fteAfterStart (fteAfterStart 0 S.percent) e.percent = fteAfterStart 0 S.percent)
    (hord : ∀ e ∈ rest, S.Start ≤ e.Start ∧ e.Start ≤ e.End) :
    ∀ p q, rest = p ++ q →
      ∃ s' sns, runAux W initState (S :: p) = some (s', sns) ∧ 0 ≤ s'.accrued := by
  intro p q hpq
  have hconstp : ∀ e ∈ p, e.isStartDay = true →
      fteAfterStart (fteAfterStart 0 S.percent) e.percent = fteAfterStart 0 S.percent :=
    fun e he => hconst e (by rw [hpq]; exact List.mem_append_left q he)
  have hordp : ∀ e ∈ p, S.Start ≤ e.Start ∧ e.Start ≤ e.End :=
    fun e he => hord e (by rw [hpq]; exact List.mem_append_left q he)
  have h1 := step_first_start (W := W) (S := S) hS
  obtain ⟨s', sns, hrun, hf, hlast, hsd', hacc⟩ :=
    runAux_const_fte W p
      { startDate := some S.Start, lastDate := some S.Start, lastVacationDate := none,
        fte := fteAfterStart 0 S.percent, accrued := 0, spent := 0 }
      S.Start S.Start rfl rfl hconstp
  dsimp only at hf hacc
  have hrun2 : runAux W initState (S :: p) =
      some (s', ⟨S.Start, S.End, 0, 0, 0, 0⟩ :: sns) := by
    simp only [runAux, h1, hrun]
    rfl
  refine ⟨s', _, hrun2, ?_⟩
  rw [hacc]
  have hge : S.Start ≤ lastEnd S.Start p := lastEnd_ge p S.Start hordp (le_refl _)
  have hf0 : 0 ≤ fteAfterStart 0 S.percent :=
    (fteAfterStart_bounds (le_refl 0) (by norm_num) S.percent).1
  have hH : (0:ℚ) ≤ HolidaysPerCalendarDay := by norm_num [HolidaysPerCalendarDay]
  have hcast : (0:ℚ) ≤ ((lastEnd S.Start p - S.Start : Int) : ℚ) := by
    have h0 : (0:Int) ≤ lastEnd S.Start p - S.Start := by omega
    exact_mod_cast h0
  have := mul_nonneg (mul_nonneg hf0 hH) hcast
  linarith

/-- Witness for C8 (amended): start `[0,1)` then vacation `[2,6)`. -/
theorem c8_accrued_amended_witness :
    ((⟨0, 1, true, false, false, none⟩ : Event).isStartDay = true) ∧
    ∃ s' sns, runAux (fun _ => 0) initState
        [⟨0, 1, true, false, false, none⟩, ⟨2, 6, false, true, false, none⟩] =
      some (s', sns) ∧ 0 ≤ s'.accrued :=
  ⟨rfl, c8_accrued_amended (fun _ => 0) ⟨0, 1, true, false, false, none⟩
    [⟨2, 6, false, true, false, none⟩] rfl (by simp) (by norm_num)
    [⟨2, 6, false, true, false, none⟩] [] rfl⟩

/-- C9: a vacation marker reached while `startDate` is still unset kills the
run with `log.Fatal`, and the state at the moment of abort is exactly the
state before the marker — in a run from the initial state, `startDate` unset
implies `lastDate` is nil, so the accrual block did not touch anything
either; continuing the event list past the marker yields no result. -/
theorem c9_vacation_before_start_fatal (W : Int → Int) (p : List Event) (s : State)
    (sns : List Snapshot) (ev : Event)
    (hrun : runAux W initState p = some (s, sns))
    (hsd : s.startDate = none)
    (hnsd : ev.isStartDay = false) (hv : ev.isVacation = true) :
    step W s ev = StepRes.fatal s ∧ ∀ q, runAux W initState (p ++ ev :: q) = none := by
  have hinv : s.lastDate = none :=
    runAux_inv W p initState s sns (fun _ => rfl) hrun hsd
  constructor
  · exact step_vacation_fatal hnsd hv hsd hinv
  · intro q
    rw [runAux_append]
    simp only [hrun, runAux, step_vacation_fatal hnsd hv hsd hinv]

/-- Witness for C9: a vacation marker as the very first event. -/
theorem c9_vacation_before_start_fatal_witness :
    initState.startDate = none ∧
    step (fun _ => 0) initState ⟨2, 3, false, true, false, none⟩ = StepRes.fatal initState :=
  ⟨rfl, (c9_vacation_before_start_fatal (fun _ => 0) [] initState []
    ⟨2, 3, false, true, false, none⟩ rfl rfl rfl rfl).1⟩

/-- C10: merging a rendered balance line (which starts with
`"vacation from "` and contains no newline) into a description is
idempotent: the second merge drops the line the first merge appended and
re-appends it, leaving the text unchanged. -/
theorem c10_merge_idempotent (t L : List Char)
    (hpre : vacationFrom.isPrefixOf L = true) (hnl : '\n' ∉ L) :
    mergeIntoNotes (mergeIntoNotes t L) L = mergeIntoNotes t L := by
  have hmem : ∀ l ∈ splitOnNl t, '\n' ∉ l := fun l hl => mem_splitOnNl_no_nl t l hl
  have h1 : ∀ (ls1 : List (List Char)), (∀ l ∈ ls1, '\n' ∉ l) →
      mergeIntoNotes (joinNl (ls1 ++ [L])) L = joinNl (ls1 ++ [L]) := by
    intro ls1 hmem1
    unfold mergeIntoNotes
    have hsplit : splitOnNl (joinNl (ls1 ++ [L])) = ls1 ++ [L] := by
      apply splitOnNl_joinNl
      · simp
      · intro l hl
        rcases List.mem_append.mp hl with h | h
        · exact hmem1 l h
        · rw [List.mem_singleton.mp h]
          exact hnl
    rw [hsplit]
    simp only [List.getLast?_concat, hpre, if_true, List.dropLast_concat]
  have hinner : ∃ ls1, (∀ l ∈ ls1, '\n' ∉ l) ∧ mergeIntoNotes t L = joinNl (ls1 ++ [L]) := by
    unfold mergeIntoNotes
    rcases h : (splitOnNl t).getLast? with _ | lastLine
    · exact ⟨splitOnNl t, hmem, by simp only [h]⟩
    · by_cases hp : vacationFrom.isPrefixOf lastLine = true
      · refine ⟨(splitOnNl t).dropLast,
          (fun l hl => hmem l (List.mem_of_mem_dropLast hl)), ?_⟩
        simp only [h, hp, if_true]
      · exact ⟨splitOnNl t, hmem, by simp [h, hp]⟩
  obtain ⟨ls1, hmem1, heq⟩ := hinner
  rw [heq]
  exact h1 ls1 hmem1

/-- Witness for C10 on a two-line description. -/
theorem c10_merge_idempotent_witness :
    vacationFrom.isPrefixOf ("vacation from a to b: 1.0 days".data) = true ∧
    '\n' ∉ ("vacation from a to b: 1.0 days".data) ∧
    mergeIntoNotes (mergeIntoNotes ("team offsite\nbring laptop".data)
        ("vacation from a to b: 1.0 days".data)) ("vacation from a to b: 1.0 days".data) =
      mergeIntoNotes ("team offsite\nbring laptop".data) ("vacation from a to b: 1.0 days".data) :=
  ⟨by decide, by decide,
   c10_merge_idempotent ("team offsite\nbring laptop".data)
     ("vacation from a to b: 1.0 days".data) (by decide) (by decide)⟩

end HolidayBalance
